import Mathlib

/-!
Verification development for the `texting_robots` robots.txt library.

The Rust sources are shallowly embedded:
* bytes (`&[u8]`) are `List Nat`;
* strings (`&str`, `String`) that are only ever inspected bytewise or
  charwise are `List Char`;
* `f32` crawl-delay values are represented exactly as `Rat` (the claims only
  exercise small decimal literals, which `f32` represents exactly);
* fallible operations return `Option`/`Except`; a `none` in the pattern
  matcher marks an input on which the Rust code panics (out-of-bounds index /
  usize underflow), see `matcherOpt`.

Definitions follow `src/lib.rs` and `src/minregex.rs`; spec-side definitions
(written from the specification's words, for comparison against the code) are
clearly marked as such.
-/

namespace TextingRobots

/-- Bytes are modeled as natural numbers (`&[u8]` in Rust). -/
abbrev Byte := Nat

/-- The UTF-8 bytes of an ASCII string literal, used to write byte-string
constants the way the Rust sources write `b"..."`. -/
def asciiBytes (s : String) : List Byte := s.data.map Char.toNat

/-- `is_not_line_ending` from lib.rs. -/
def is_not_line_ending (c : Byte) : Bool := c != 10 && c != 13

/-- `is_not_line_ending_or_comment` from lib.rs. -/
def is_not_line_ending_or_comment (c : Byte) : Bool := c != 10 && c != 13 && c != 35

/-- nom's `space0`/`space1` character class: space and horizontal tab. -/
def isSpaceByte (c : Byte) : Bool := c == 32 || c == 9

/-- ASCII whitespace, used to model `bstr`'s `.trim()` on directive values.
(`bstr` also trims non-ASCII Unicode whitespace; the claims only exercise
ASCII documents, and directive values can never contain `\n`/`\r`.) -/
def isWhitespaceByte (c : Byte) : Bool := (9 ≤ c && c ≤ 13) || c == 32

/-- `.trim()` on a byte slice: drop leading and trailing whitespace. -/
def trimBytes (l : List Byte) : List Byte :=
  ((l.dropWhile isWhitespaceByte).reverse.dropWhile isWhitespaceByte).reverse

/-- `to_ascii_lowercase` on a single byte. -/
def asciiLowerByte (c : Byte) : Byte := if 65 ≤ c ∧ c ≤ 90 then c + 32 else c

/-- `consume_newline` from lib.rs: any number of `\r` then an optional `\n`. -/
def consume_newline (input : List Byte) : List Byte :=
  if (input.dropWhile (· == 13)).head? = some 10 then (input.dropWhile (· == 13)).tail
  else input.dropWhile (· == 13)

/-- `Line` from lib.rs: one parsed directive line.  The `f32` payload of
`CrawlDelay` is represented as a `Rat`. -/
inductive Line where
  | userAgent (ua : List Byte)
  | allow (rule : List Byte)
  | disallow (rule : List Byte)
  | sitemap (url : List Byte)
  | crawlDelay (delay : Option Rat)
  | raw (content : List Byte)
deriving DecidableEq, Repr

/-- `Line::UserAgent(_)` discriminator. -/
def Line.isUserAgent : Line → Bool
  | .userAgent _ => true
  | _ => false

/-- The catch-all nom parser `line` from lib.rs: everything up to the line
ending becomes `Raw`, then the line ending is consumed.  It never fails. -/
def lineRaw (input : List Byte) : Line × List Byte :=
  (Line.raw (input.takeWhile is_not_line_ending),
   consume_newline (input.dropWhile is_not_line_ending))

/-- nom's `tag_no_case` on bytes: match a keyword ASCII-case-insensitively and
consume it. -/
def tag_no_case (kw : List Byte) (input : List Byte) : Option (List Byte) :=
  if (input.take kw.length).map asciiLowerByte = kw.map asciiLowerByte then
    some (input.drop kw.length)
  else none

/-- `alt` over a list of `tag_no_case` keywords, tried in order. -/
def tagNoCaseAlt (kws : List (List Byte)) (input : List Byte) : Option (List Byte) :=
  match kws with
  | [] => none
  | k :: rest => tag_no_case k input <|> tagNoCaseAlt rest input

/-- The keyword separator in `many_statement_builder`:
`alt((preceded(space0, tag(":")), space1))` — a colon optionally preceded by
spaces, or (backtracking to the original position) one-or-more spaces. -/
def separator (input : List Byte) : Option (List Byte) :=
  if (input.dropWhile isSpaceByte).head? = some 58 then
    some (input.dropWhile isSpaceByte).tail
  else
    match input with
    | c :: _ => if isSpaceByte c then some (input.dropWhile isSpaceByte) else none
    | [] => none

/-- `opt(preceded(tag("#"), take_while(is_not_line_ending)))`: an optional
inline comment after the directive value. -/
def consumeComment (input : List Byte) : List Byte :=
  if input.head? = some 35 then input.tail.dropWhile is_not_line_ending else input

/-- `many_statement_builder` from lib.rs: leading spaces, one of the keyword
spellings, the separator, the value up to EOL or `#`, an optional comment, the
line ending; the value is trimmed. -/
def many_statement_builder (kws : List (List Byte)) (input : List Byte) :
    Option (List Byte × List Byte) :=
  match tagNoCaseAlt kws (input.dropWhile isSpaceByte) with
  | none => none
  | some i1 =>
    match separator i1 with
    | none => none
    | some i2 =>
      let value := i2.takeWhile is_not_line_ending_or_comment
      let i3 := consume_newline (consumeComment (i2.dropWhile is_not_line_ending_or_comment))
      some (trimBytes value, i3)

def userAgentKeywords : List (List Byte) :=
  [asciiBytes "user-agent", asciiBytes "user agent", asciiBytes "useragent"]

def allowKeywords : List (List Byte) := [asciiBytes "allow"]

def disallowKeywords : List (List Byte) :=
  [asciiBytes "disallow", asciiBytes "dissallow", asciiBytes "dissalow",
   asciiBytes "disalow", asciiBytes "diasllow", asciiBytes "disallaw"]

def sitemapKeywords : List (List Byte) :=
  [asciiBytes "sitemap", asciiBytes "site-map", asciiBytes "site map"]

def crawlDelayKeywords : List (List Byte) :=
  [asciiBytes "crawl-delay", asciiBytes "crawl delay", asciiBytes "crawldelay"]

/-- `user_agent` parser from lib.rs. -/
def user_agent (input : List Byte) : Option (Line × List Byte) :=
  (many_statement_builder userAgentKeywords input).map fun vr =>
    (Line.userAgent vr.1, vr.2)

/-- `allow` parser from lib.rs. -/
def allow (input : List Byte) : Option (Line × List Byte) :=
  (many_statement_builder allowKeywords input).map fun vr =>
    (Line.allow vr.1, vr.2)

/-- `disallow` parser from lib.rs: an empty value produces `Allow("/")`
("Disallow:" is equivalent to allow all). -/
def disallow (input : List Byte) : Option (Line × List Byte) :=
  (many_statement_builder disallowKeywords input).map fun vr =>
    if vr.1 = [] then (Line.allow [47], vr.2) else (Line.disallow vr.1, vr.2)

/-- `sitemap` parser from lib.rs. -/
def sitemap (input : List Byte) : Option (Line × List Byte) :=
  (many_statement_builder sitemapKeywords input).map fun vr =>
    (Line.sitemap vr.1, vr.2)

/-- A digit byte. -/
def isDigitByte (c : Byte) : Bool := 48 ≤ c && c ≤ 57

/-- Decimal digits to a natural number. -/
def digitsToNat (ds : List Byte) : Nat := ds.foldl (fun acc d => acc * 10 + (d - 48)) 0

/-- Model of Rust `str::parse::<f32>` restricted to finite decimal literals:
an optional sign, then digits with an optional single `.` (at least one digit
overall).  Exponent forms and `inf`/`NaN` spellings accepted by the real
parser are outside this model, as is `f32` rounding; the claims only exercise
small decimal literals, which `f32` represents exactly. -/
def parseDecimal (bytes : List Byte) : Option Rat :=
  let sr : Bool × List Byte :=
    match bytes with
    | 43 :: r => (false, r)
    | 45 :: r => (true, r)
    | _ => (false, bytes)
  let signed : Rat → Rat := fun x => if sr.1 then -x else x
  let intd := sr.2.takeWhile isDigitByte
  match sr.2.dropWhile isDigitByte with
  | [] => if intd = [] then none else some (signed (digitsToNat intd))
  | 46 :: r =>
    let fracd := r.takeWhile isDigitByte
    if r.dropWhile isDigitByte = [] ∧ (intd ≠ [] ∨ fracd ≠ []) then
      some (signed ((digitsToNat intd : Rat) +
        (digitsToNat fracd : Rat) / ((10 : Rat) ^ fracd.length)))
    else none
  | _ => none

/-- `crawl_delay` parser from lib.rs: the value must parse as a non-negative
number, otherwise the parser errors (and the line later degrades to `Raw`). -/
def crawl_delay (input : List Byte) : Option (Line × List Byte) :=
  match many_statement_builder crawlDelayKeywords input with
  | none => none
  | some (v, rest) =>
    match parseDecimal v with
    | some d => if 0 ≤ d then some (Line.crawlDelay (some d), rest) else none
    | none => none

/-- One iteration of `many_till`'s matcher:
`alt((user_agent, allow, disallow, sitemap, crawl_delay, line))`.
The final `line` alternative never fails, so the whole alternation is total. -/
def lineAlt (input : List Byte) : Line × List Byte :=
  match user_agent input <|> allow input <|> disallow input <|>
        sitemap input <|> crawl_delay input with
  | some r => r
  | none => lineRaw input

/-- Strip an optional UTF-8 BOM, byte by byte, exactly as lib.rs does
(three independent `opt(tag(..))` steps). -/
def stripBOM (input : List Byte) : List Byte :=
  let i := match input with | 0xef :: r => r | _ => input
  let i := match i with | 0xbb :: r => r | _ => i
  match i with | 0xbf :: r => r | _ => i

/-- `many_till(matcher, eof)`: parse lines until the input is exhausted.
The fuel argument is an artifact of the embedding (each step consumes at
least one byte); `robots_txt_parse_total` proves it never runs out when
started with `length + 1`. -/
def manyTillLine : Nat → List Byte → Option (List Line)
  | 0, _ => none
  | _ + 1, [] => some []
  | fuel + 1, b :: input =>
    let lr := lineAlt (b :: input)
    (manyTillLine fuel lr.2).map (lr.1 :: ·)

/-- `robots_txt_parse` from lib.rs: strip the BOM, then parse every line. -/
def robots_txt_parse (input : List Byte) : Option (List Line) :=
  manyTillLine ((stripBOM input).length + 1) (stripBOM input)

/-! ## The pattern matcher (`src/minregex.rs`) -/

/-- The `STARKILLER_REGEX` step of `MinRegex::new`: replace every run of two
or more consecutive `*` with a single `*`. -/
def collapseStars : List Char → List Char
  | [] => []
  | [c] => [c]
  | c1 :: c2 :: rest =>
    if c1 = '*' ∧ c2 = '*' then collapseStars (c2 :: rest)
    else c1 :: collapseStars (c2 :: rest)

/-- `MinRegex` from minregex.rs: the original pattern (whose length drives
rule precedence) and the star-collapsed pattern actually used for matching. -/
structure MinRegex where
  pattern : List Char
  regex : List Char
deriving DecidableEq, Repr

/-- `MinRegex::new`: collapse star runs; construction never fails (the
`Result` return type of the Rust function has no `Err` exit). -/
def MinRegex.new (pattern : List Char) : Except Unit MinRegex :=
  .ok ⟨pattern, collapseStars pattern⟩

/-- The value `MinRegex::new` always succeeds with. -/
def MinRegex.compile (pattern : List Char) : MinRegex :=
  ⟨pattern, collapseStars pattern⟩

/-- `MinRegex::as_str`: the collapsed pattern. -/
def MinRegex.as_str (r : MinRegex) : List Char := r.regex

/-- `MinRegex::matcher` from minregex.rs, re-expressed on the unconsumed
suffixes of `pattern` and `text`:
in the Rust code `pidx`/`tidx` index into the full slices, and with
`P = pattern[pidx..]`, `T = text[tidx..]` the loop condition
`pidx < pattern.len()-1 && tidx < text.len()-1` is `2 ≤ P.length ∧ 2 ≤ T.length`,
`pattern[pidx] = P.head`, `pidx == pattern.len()-1` is `P.length = 1`,
`tidx == text.len()-1` is `T.length = 1`, and the inner `temp` loop ranges
over the suffixes of `T` of length at least 2.
The cases with an empty pattern or empty text are unreachable from
`MinRegex.is_matchOpt` (on them the Rust code panics, see `matcherOpt`). -/
def matcherS : List Char → List Char → Bool
  | p :: p2 :: ps, t :: t2 :: ts =>
    if p = '*' then
      -- `pidx += 1`; then the `temp` loop, then the leading-wildcard fallback
      ((t :: t2 :: ts).tails.any fun s =>
        decide (2 ≤ s.length) && matcherS (p2 :: ps) s) ||
      (if ps ≠ [] then matcherS (p2 :: ps) (t :: t2 :: ts) else false)
    else if p = '$' then false
    else if p ≠ t then false
    else matcherS (p2 :: ps) (t2 :: ts)
  | [p], t :: _ =>
    -- `pidx == pattern.len() - 1`
    if p = '*' then true else decide (p = t)
  | p :: p2 :: ps, [t] =>
    -- loop exited with `tidx == text.len() - 1` and pattern not yet consumed
    if ps = [] ∧ p2 = '$' then decide (p = t)
    else if p = '$' then true
    else if ps = [] ∧ p2 = '*' then true
    else false
  | _, _ => false

/-- `MinRegex::matcher` including its panicking behavior: on an empty pattern
or an empty text the Rust code underflows `len() - 1` (debug) or indexes out
of bounds (release); `none` models that panic. -/
def matcherOpt (pattern text : List Char) : Option Bool :=
  if pattern = [] ∨ text = [] then none else some (matcherS pattern text)

/-- `MinRegex::is_match` including the panicking behavior of `matcher`
(`none` models a panic).  An empty collapsed pattern matches everything. -/
def MinRegex.is_matchOpt (r : MinRegex) (text : List Char) : Option Bool :=
  if r.regex = [] then some true else matcherOpt r.regex text

/-- `MinRegex::is_match` as a total function; the `getD false` default is
only exercised on inputs where the Rust code panics (empty text with a
non-empty collapsed pattern, see claim C2). -/
def MinRegex.is_match (r : MinRegex) (text : List Char) : Bool :=
  (r.is_matchOpt text).getD false

/-! ## Robot construction and queries (`src/lib.rs`) -/

/-- A standard RFC 3629 UTF-8 validity check, modeling `str::from_utf8` /
`String::from_utf8` success. -/
def utf8Valid : List Byte → Bool
  | [] => true
  | b :: rest =>
    if b ≤ 0x7f then utf8Valid rest
    else if 0xc2 ≤ b ∧ b ≤ 0xdf then
      match rest with
      | b2 :: r => (0x80 ≤ b2 && b2 ≤ 0xbf) && utf8Valid r
      | [] => false
    else if b = 0xe0 then
      match rest with
      | b2 :: b3 :: r =>
        (0xa0 ≤ b2 && b2 ≤ 0xbf) && (0x80 ≤ b3 && b3 ≤ 0xbf) && utf8Valid r
      | _ => false
    else if (0xe1 ≤ b ∧ b ≤ 0xec) ∨ b = 0xee ∨ b = 0xef then
      match rest with
      | b2 :: b3 :: r =>
        (0x80 ≤ b2 && b2 ≤ 0xbf) && (0x80 ≤ b3 && b3 ≤ 0xbf) && utf8Valid r
      | _ => false
    else if b = 0xed then
      match rest with
      | b2 :: b3 :: r =>
        (0x80 ≤ b2 && b2 ≤ 0x9f) && (0x80 ≤ b3 && b3 ≤ 0xbf) && utf8Valid r
      | _ => false
    else if b = 0xf0 then
      match rest with
      | b2 :: b3 :: b4 :: r =>
        (0x90 ≤ b2 && b2 ≤ 0xbf) && (0x80 ≤ b3 && b3 ≤ 0xbf) &&
        (0x80 ≤ b4 && b4 ≤ 0xbf) && utf8Valid r
      | _ => false
    else if 0xf1 ≤ b ∧ b ≤ 0xf3 then
      match rest with
      | b2 :: b3 :: b4 :: r =>
        (0x80 ≤ b2 && b2 ≤ 0xbf) && (0x80 ≤ b3 && b3 ≤ 0xbf) &&
        (0x80 ≤ b4 && b4 ≤ 0xbf) && utf8Valid r
      | _ => false
    else if b = 0xf4 then
      match rest with
      | b2 :: b3 :: b4 :: r =>
        (0x80 ≤ b2 && b2 ≤ 0x8f) && (0x80 ≤ b3 && b3 ≤ 0xbf) &&
        (0x80 ≤ b4 && b4 ≤ 0xbf) && utf8Valid r
      | _ => false
    else false

/-- The UTF-8 bytes of one scalar value (standard encoding, modeling
`str::as_bytes`). -/
def utf8EncodeChar (c : Char) : List Byte :=
  let n := c.toNat
  if n < 0x80 then [n]
  else if n < 0x800 then [0xc0 + n / 0x40, 0x80 + n % 0x40]
  else if n < 0x10000 then
    [0xe0 + n / 0x1000, 0x80 + n / 0x40 % 0x40, 0x80 + n % 0x40]
  else
    [0xf0 + n / 0x40000, 0x80 + n / 0x1000 % 0x40, 0x80 + n / 0x40 % 0x40,
     0x80 + n % 0x40]

/-- `str::as_bytes` for a char list. -/
def utf8Encode (s : List Char) : List Byte := s.flatMap utf8EncodeChar

/-- ASCII lowercase on a char, modeling `str::to_lowercase` (which also
lowercases non-ASCII; the claims only exercise ASCII agent names). -/
def asciiLowerChar (c : Char) : Char :=
  if 'A' ≤ c ∧ c ≤ 'Z' then Char.ofNat (c.toNat + 32) else c

/-- The hex digit chars used by percent encoding (uppercase). -/
def hexDigit (n : Nat) : Char :=
  if n < 10 then Char.ofNat (48 + n) else Char.ofNat (55 + n)

/-- `percent_encode` from lib.rs on the UTF-8 bytes of a pattern: the crate's
`CONTROLS` set (C0 controls and DEL) plus space, quote, angle brackets and
backquote are percent-encoded, and non-ASCII bytes are always
percent-encoded. -/
def percentEncode (bytes : List Byte) : List Char :=
  bytes.flatMap fun b =>
    if b < 0x20 ∨ b = 0x7f ∨ 0x80 ≤ b ∨ b = 32 ∨ b = 34 ∨ b = 60 ∨ b = 62 ∨ b = 96 then
      ['%', hexDigit (b / 16), hexDigit (b % 16)]
    else [Char.ofNat b]

/-- `Robot` from lib.rs: the compiled rules with their allow/disallow
polarity, the crawl delay, and the sitemap URLs (kept as their UTF-8
bytes). -/
structure Robot where
  rules : List (MinRegex × Bool)
  delay : Option Rat
  sitemaps : List (List Byte)
deriving DecidableEq, Repr

/-- The error type of `Robot::new` (`Error::InvalidRobots` for a parse
failure, and a wrapped regex error for a rule compile failure). -/
inductive RobotError where
  | invalidRobots
  | invalidRule
deriving DecidableEq, Repr

/-- `agent.as_bytes() == ua.as_bstr().to_ascii_lowercase()`: the user-agent
comparison used both for the reference check and the capturing loop. -/
def agentMatches (agent : List Byte) (ua : List Byte) : Bool :=
  agent == ua.map asciiLowerByte

/-- The capturing loop of `Robot::new` (lib.rs lines 580-619), re-expressed
recursively.  `inRun` records whether the previous line was a `UserAgent`
line of the same run (in the Rust code this is the inner `while`); `cap` is
the `capturing` flag.  When the document ends inside a `UserAgent` run the
Rust loop breaks with `line` still pointing at the last `UserAgent` line and
then pushes it if capturing — that quirk is reproduced here (such a pushed
`UserAgent` line is invisible to rule and delay extraction). -/
def selectLoop (agent : List Byte) : Bool → Bool → List Line → List Line
  | _, _, [] => []
  | inRun, cap, .userAgent ua :: rest =>
    let cap' := ((if inRun then cap else false) || agentMatches agent ua)
    match rest with
    | [] => if cap' then [Line.userAgent ua] else []
    | _ :: _ => selectLoop agent true cap' rest
  | _, cap, l :: rest =>
    (if cap then [l] else []) ++ selectLoop agent false cap rest

/-- The payload of a `CrawlDelay(Some(_))` line. -/
def delayOfLine : Line → Option Rat
  | .crawlDelay (some d) => some d
  | _ => none

/-- Phase 1 of delay resolution: the first `CrawlDelay(Some(_))` captured for
the agent (`subset.iter().filter_map(..).next()`). -/
def capturedDelay (subset : List Line) : Option Rat :=
  (subset.filterMap delayOfLine).head?

/-- Phase 2 of delay resolution (lib.rs lines 633-642): scan the line
sequence from the start, remembering the payload of each `CrawlDelay(Some(_))`
(later ones overwrite earlier ones) and stopping at the first `UserAgent`
line. -/
def preAgentDelay : List Line → Option Rat
  | [] => none
  | .userAgent _ :: _ => none
  | .crawlDelay (some d) :: rest =>
    match preAgentDelay rest with
    | some d' => some d'
    | none => some d
  | _ :: rest => preAgentDelay rest

/-- The two-phase crawl delay resolution of `Robot::new`. -/
def resolveDelay (subset lines : List Line) : Option Rat :=
  match capturedDelay subset with
  | some d => some d
  | none => preAgentDelay lines

/-- The rule-compilation loop of `Robot::new` (lib.rs lines 644-674): each
captured `Allow`/`Disallow` line whose value is valid UTF-8 is
percent-encoded and compiled; invalid UTF-8 skips the rule, and a compile
failure aborts construction. -/
def buildRules : List Line → Except RobotError (List (MinRegex × Bool))
  | [] => .ok []
  | l :: rest =>
    match (match l with
           | .allow pat => some (true, pat)
           | .disallow pat => some (false, pat)
           | _ => none) with
    | none => buildRules rest
    | some (isAllowed, pat) =>
      if utf8Valid pat then
        match MinRegex.new (percentEncode pat) with
        | .error _ => .error .invalidRule
        | .ok rule =>
          match buildRules rest with
          | .error e => .error e
          | .ok rs => .ok ((rule, isAllowed) :: rs)
      else buildRules rest

/-- The final step of `Robot::new`: a rule-compile failure aborts
construction, otherwise the `Robot` value is assembled. -/
def mkRobot (rules? : Except RobotError (List (MinRegex × Bool)))
    (delay : Option Rat) (sitemaps : List (List Byte)) : Except RobotError Robot :=
  match rules? with
  | .error e => .error e
  | .ok rules => .ok ⟨rules, delay, sitemaps⟩

/-- The sitemap collection of `Robot::new` (lib.rs lines 548-559): every
`Sitemap` line whose URL is valid UTF-8 (`String::from_utf8`), in document
order. -/
def collectSitemaps (lines : List Line) : List (List Byte) :=
  lines.filterMap fun l =>
    match l with
    | .sitemap url => if utf8Valid url then some url else none
    | _ => none

/-- The `Sitemap`/`Raw` filter of `Robot::new` (lib.rs lines 561-567). -/
def activeLines (lines : List Line) : List Line :=
  lines.filter fun l =>
    match l with
    | .sitemap _ => false
    | .raw _ => false
    | _ => true

/-- The `references_our_bot` check of `Robot::new` (lib.rs lines 569-575). -/
def referencesAgent (agentBytes : List Byte) (lines2 : List Line) : Bool :=
  lines2.any fun l =>
    match l with
    | .userAgent ua => agentMatches agentBytes ua
    | _ => false

/-- The captured subset of `Robot::new` (lib.rs lines 569-619): lower-case
the agent, fall back to `*` if the agent is not referenced, start capturing
iff the document has no `UserAgent` line at all, and run the capturing
loop. -/
def robotSubset (agent : List Char) (lines2 : List Line) : List Line :=
  selectLoop
    (if referencesAgent (utf8Encode (agent.map asciiLowerChar)) lines2
     then utf8Encode (agent.map asciiLowerChar) else [42])
    false ((lines2.filter Line.isUserAgent).length = 0) lines2

/-- The body of `Robot::new` after parsing (lib.rs lines 544-676): collect
sitemaps, filter out `Sitemap`/`Raw` lines, select the captured subset,
resolve the crawl delay, and compile the captured rules. -/
def robotFromLines (agent : List Char) (lines : List Line) : Except RobotError Robot :=
  mkRobot (buildRules (robotSubset agent (activeLines lines)))
    (resolveDelay (robotSubset agent (activeLines lines)) (activeLines lines))
    (collectSitemaps lines)

/-- `Robot::new` from lib.rs: replace NUL bytes by newlines, parse (a parse
failure would surface as `InvalidRobots`), then process the lines. -/
def Robot.new (agent : List Char) (txt : List Byte) : Except RobotError Robot :=
  match robots_txt_parse (txt.map fun b => if b = 0 then 10 else b) with
  | none => .error .invalidRobots
  | some lines => robotFromLines agent lines

deriving instance DecidableEq for Except

/-- The sort key of `matches.sort_by_key(|x| (&x.0, !x.1))` as a binary
relation: `MinRegex`'s `Ord` is reversed pattern-length order (longest
first), and among equal lengths `!is_allowed` orders `Allow` (`!true =
false`) before `Disallow`.  Rust compares `pattern.len()`, the byte length
of the stored `String`; patterns compiled by `Robot::new` are percent-encoded
and hence ASCII, where byte length equals the char count used here. -/
def keyLe (a b : MinRegex × Bool) : Prop :=
  b.1.pattern.length < a.1.pattern.length ∨
    (a.1.pattern.length = b.1.pattern.length ∧ (a.2 = true ∨ b.2 = false))

instance : DecidableRel keyLe := fun a b => by
  unfold keyLe; infer_instance

/-- `Robot::allowed` from lib.rs, taking the already-normalized path (the
output of `prepare_url`; URL normalization itself lives in the external `url`
crate, and its outputs are percent-encoded and hence ASCII, where the chars
compared here coincide with the bytes the Rust matcher compares):
`/robots.txt` is unconditionally allowed; otherwise the matching rules are
stably sorted by `(rule, !is_allowed)` and the first match decides,
defaulting to allowed.  Rust's stable `sort_by_key` is modeled by stable
insertion sort (`List.insertionSort` inserts before equal keys), which
computes the same list. -/
def Robot.allowed (r : Robot) (url : List Char) : Bool :=
  if url = "/robots.txt".data then true
  else
    let ms := r.rules.filter fun rb => rb.1.is_match url
    match (List.insertionSort keyLe ms).head? with
    | some rb => rb.2
    | none => true

/-- The parsed line sequence a byte document yields inside `Robot::new`
(NUL bytes replaced by newlines first); the parser is total
(`robots_txt_parse_total`), so the `getD` default is never used. -/
def parsedLines (txt : List Byte) : List Line :=
  (robots_txt_parse (txt.map fun b => if b = 0 then 10 else b)).getD []

/-! ## Spec-side definitions

The following definitions are written from the specification's words (not
from the source) and exist only to be compared against the code above. -/

/-- Spec-side (claim C4): the capturing state machine as the specification
words it — a `UserAgent` run resets capturing to false at its start, each
`UserAgent` line of the run sets capturing if it names the active agent
(case-insensitively), and every non-`UserAgent` line is captured iff
capturing is true.  Unlike the code's `selectLoop`, it never captures a
`UserAgent` line. -/
def specCapture (agent : List Byte) : Bool → Bool → List Line → List Line
  | inRun, cap, .userAgent ua :: rest =>
    specCapture agent true ((if inRun then cap else false) || agentMatches agent ua) rest
  | _, cap, l :: rest => (if cap then [l] else []) ++ specCapture agent false cap rest
  | _, _, [] => []

/-- Spec-side (claim C1): collect every rule matching the path; if none
matches the path is allowed; otherwise the verdict is the polarity of the
highest-ranked match — descending original-pattern length, `Allow`
outranking `Disallow` among equal lengths, so the verdict is `true` iff some
maximal-length match is an `Allow`. -/
def specDecision (rules : List (MinRegex × Bool)) (url : List Char) : Bool :=
  let ms := rules.filter fun rb => rb.1.is_match url
  if ms.isEmpty then true
  else ms.any fun rb =>
    rb.2 && ms.all fun y => y.1.pattern.length ≤ rb.1.pattern.length

/-- Spec-side (claim C3): wildcard matching where every character is literal
except `*`, which matches any (possibly empty) run of characters; the pattern
must match a prefix of the candidate, anchored at the start (per §4.2 of the
spec: the first segment is anchored to the start, and without `$` there is no
end constraint). -/
def wildPrefixMatch : List Char → List Char → Bool
  | [], _ => true
  | p :: ps, ts =>
    if p = '*' then ts.tails.any fun s => wildPrefixMatch ps s
    else
      match ts with
      | [] => false
      | t :: ts' => p == t && wildPrefixMatch ps ts'

/-- Spec-side (claim C3): as `wildPrefixMatch` but the pattern must consume
the entire candidate (used when a trailing `$` anchors the pattern's end to
the end of the candidate). -/
def wildExactMatch : List Char → List Char → Bool
  | [], ts => ts.isEmpty
  | p :: ps, ts =>
    if p = '*' then ts.tails.any fun s => wildExactMatch ps s
    else
      match ts with
      | [] => false
      | t :: ts' => p == t && wildExactMatch ps ts'

/-- Spec-side (claim C3): the literal-regex wildcard semantics of a robots.txt
pattern — `*` matches any run of characters, a trailing `$` anchors the end
of the pattern to the end of the candidate, every other character is
literal. -/
def specWildMatch (pattern text : List Char) : Bool :=
  if pattern.getLast? = some '$' then wildExactMatch pattern.dropLast text
  else wildPrefixMatch pattern text

/-- Spec-side (claim C8): the syntactically valid `Sitemap` lines of a parsed
document, in document order, not deduplicated (a sitemap URL must be valid
UTF-8 to be a `String`). -/
def docSitemaps (lines : List Line) : List (List Byte) :=
  lines.filterMap fun l =>
    match l with
    | .sitemap url => if utf8Valid url then some url else none
    | _ => none

/-! ## Totality of the parser -/

theorem dropWhile_length_le (p : α → Bool) :
    ∀ l : List α, (l.dropWhile p).length ≤ l.length
  | [] => Nat.le_refl _
  | a :: l => by
    rw [List.dropWhile_cons]
    split
    · exact Nat.le_trans (dropWhile_length_le p l) (Nat.le_succ _)
    · exact Nat.le_refl _

theorem consume_newline_length_le (input : List Byte) :
    (consume_newline input).length ≤ input.length := by
  have h := dropWhile_length_le (· == 13) input
  have ht := List.length_tail (input.dropWhile (· == 13))
  unfold consume_newline
  split
  · omega
  · exact h

theorem consumeComment_length_le (input : List Byte) :
    (consumeComment input).length ≤ input.length := by
  have h := dropWhile_length_le is_not_line_ending input.tail
  have ht := List.length_tail input
  unfold consumeComment
  split
  · omega
  · exact Nat.le_refl _

theorem separator_length_le {input r : List Byte} (h : separator input = some r) :
    r.length ≤ input.length := by
  have hd := dropWhile_length_le isSpaceByte input
  have ht := List.length_tail (input.dropWhile isSpaceByte)
  unfold separator at h
  split at h
  · simp only [Option.some.injEq] at h
    subst h
    omega
  · split at h
    · split at h
      · simp only [Option.some.injEq] at h
        subst h
        exact hd
      · exact Option.noConfusion h
    · exact Option.noConfusion h

theorem tag_no_case_length_lt {kw input r : List Byte} (h : tag_no_case kw input = some r)
    (hk : kw ≠ []) : r.length < input.length := by
  unfold tag_no_case at h
  split at h
  case isFalse => cases h
  case isTrue heq =>
    cases h
    have hlen := congrArg List.length heq
    simp only [List.length_map, List.length_take] at hlen
    have hkpos : 0 < kw.length := List.length_pos.mpr hk
    rw [List.length_drop]
    omega

theorem tagNoCaseAlt_length_lt :
    ∀ {kws : List (List Byte)} {input r : List Byte},
      tagNoCaseAlt kws input = some r → (∀ k ∈ kws, k ≠ []) → r.length < input.length
  | [], _, _, h, _ => by cases h
  | k :: rest, input, r, h, hk => by
    unfold tagNoCaseAlt at h
    cases htag : tag_no_case k input with
    | some r' =>
      rw [htag] at h
      cases h
      exact tag_no_case_length_lt htag (hk k (by simp))
    | none =>
      rw [htag] at h
      simp only [Option.none_orElse] at h
      exact tagNoCaseAlt_length_lt h fun k' hk' => hk k' (by simp [hk'])

theorem many_statement_builder_length_lt {kws : List (List Byte)} {input v rest : List Byte}
    (h : many_statement_builder kws input = some (v, rest))
    (hk : ∀ k ∈ kws, k ≠ []) : rest.length < input.length := by
  unfold many_statement_builder at h
  cases h1 : tagNoCaseAlt kws (input.dropWhile isSpaceByte) with
  | none => rw [h1] at h; exact Option.noConfusion h
  | some i1 =>
    simp only [h1] at h
    cases h2 : separator i1 with
    | none => rw [h2] at h; exact Option.noConfusion h
    | some i2 =>
      simp only [h2, Option.some.injEq, Prod.mk.injEq] at h
      have hrest : rest =
          consume_newline (consumeComment (i2.dropWhile is_not_line_ending_or_comment)) :=
        h.2.symm
      have c1 : rest.length ≤ i2.length := by
        rw [hrest]
        exact Nat.le_trans (consume_newline_length_le _)
          (Nat.le_trans (consumeComment_length_le _) (dropWhile_length_le _ _))
      have c2 : i2.length ≤ i1.length := separator_length_le h2
      have c3 : i1.length < (input.dropWhile isSpaceByte).length :=
        tagNoCaseAlt_length_lt h1 hk
      have c4 : (input.dropWhile isSpaceByte).length ≤ input.length :=
        dropWhile_length_le _ _
      omega

theorem userAgentKeywords_ne : ∀ k ∈ userAgentKeywords, k ≠ [] := by decide

theorem allowKeywords_ne : ∀ k ∈ allowKeywords, k ≠ [] := by decide

theorem disallowKeywords_ne : ∀ k ∈ disallowKeywords, k ≠ [] := by decide

theorem sitemapKeywords_ne : ∀ k ∈ sitemapKeywords, k ≠ [] := by decide

theorem crawlDelayKeywords_ne : ∀ k ∈ crawlDelayKeywords, k ≠ [] := by decide

theorem user_agent_length_lt {input : List Byte} {l : Line} {rest : List Byte}
    (h : user_agent input = some (l, rest)) : rest.length < input.length := by
  unfold user_agent at h
  cases hm : many_statement_builder userAgentKeywords input with
  | none => rw [hm] at h; exact Option.noConfusion h
  | some vr =>
    obtain ⟨v, r⟩ := vr
    simp only [hm, Option.map_some', Option.some.injEq, Prod.mk.injEq] at h
    obtain ⟨-, h2⟩ := h
    subst h2
    exact many_statement_builder_length_lt hm userAgentKeywords_ne

theorem allow_length_lt {input : List Byte} {l : Line} {rest : List Byte}
    (h : allow input = some (l, rest)) : rest.length < input.length := by
  unfold allow at h
  cases hm : many_statement_builder allowKeywords input with
  | none => rw [hm] at h; exact Option.noConfusion h
  | some vr =>
    obtain ⟨v, r⟩ := vr
    simp only [hm, Option.map_some', Option.some.injEq, Prod.mk.injEq] at h
    obtain ⟨-, h2⟩ := h
    subst h2
    exact many_statement_builder_length_lt hm allowKeywords_ne

theorem disallow_length_lt {input : List Byte} {l : Line} {rest : List Byte}
    (h : disallow input = some (l, rest)) : rest.length < input.length := by
  unfold disallow at h
  cases hm : many_statement_builder disallowKeywords input with
  | none => rw [hm] at h; exact Option.noConfusion h
  | some vr =>
    obtain ⟨v, r⟩ := vr
    simp only [hm, Option.map_some', Option.some.injEq] at h
    have h2 : r = rest := by
      by_cases hv : v = [] <;> simp only [hv, if_true, if_false, reduceIte,
        Prod.mk.injEq] at h <;> exact h.2
    subst h2
    exact many_statement_builder_length_lt hm disallowKeywords_ne

theorem sitemap_length_lt {input : List Byte} {l : Line} {rest : List Byte}
    (h : sitemap input = some (l, rest)) : rest.length < input.length := by
  unfold sitemap at h
  cases hm : many_statement_builder sitemapKeywords input with
  | none => rw [hm] at h; exact Option.noConfusion h
  | some vr =>
    obtain ⟨v, r⟩ := vr
    simp only [hm, Option.map_some', Option.some.injEq, Prod.mk.injEq] at h
    obtain ⟨-, h2⟩ := h
    subst h2
    exact many_statement_builder_length_lt hm sitemapKeywords_ne

theorem crawl_delay_length_lt {input : List Byte} {l : Line} {rest : List Byte}
    (h : crawl_delay input = some (l, rest)) : rest.length < input.length := by
  unfold crawl_delay at h
  cases hm : many_statement_builder crawlDelayKeywords input with
  | none => rw [hm] at h; exact Option.noConfusion h
  | some vr =>
    obtain ⟨v, r⟩ := vr
    simp only [hm] at h
    cases hp : parseDecimal v with
    | none => simp only [hp] at h; exact Option.noConfusion h
    | some d =>
      simp only [hp] at h
      split at h
      · simp only [Option.some.injEq, Prod.mk.injEq] at h
        obtain ⟨-, h2⟩ := h
        subst h2
        exact many_statement_builder_length_lt hm crawlDelayKeywords_ne
      · cases h

theorem lineRaw_length_lt {input : List Byte} (hne : input ≠ []) :
    (lineRaw input).2.length < input.length := by
  cases input with
  | nil => exact absurd rfl hne
  | cons c t =>
    show (consume_newline ((c :: t).dropWhile is_not_line_ending)).length < (c :: t).length
    by_cases hc : is_not_line_ending c = true
    · have h1 : (c :: t).dropWhile is_not_line_ending = t.dropWhile is_not_line_ending := by
        simp [List.dropWhile_cons, hc]
      rw [h1]
      have h2 := consume_newline_length_le (t.dropWhile is_not_line_ending)
      have h3 := dropWhile_length_le is_not_line_ending t
      simp only [List.length_cons]
      omega
    · have hstop : (c :: t).dropWhile is_not_line_ending = c :: t := by
        simp [List.dropWhile_cons, hc]
      rw [hstop]
      have hcv : c = 10 ∨ c = 13 := by
        simp only [is_not_line_ending, Bool.and_eq_true, bne_iff_ne, ne_eq,
          Bool.not_eq_true, not_and, Classical.not_not] at hc
        by_cases h10 : c = 10
        · exact Or.inl h10
        · exact Or.inr (hc h10)
      rcases hcv with h10 | h13
      · subst h10
        have he : consume_newline (10 :: t) = t := by
          simp [consume_newline, List.dropWhile_cons]
        rw [he]
        simp
      · subst h13
        have hd := dropWhile_length_le (· == 13) t
        have ht := List.length_tail (t.dropWhile (· == 13))
        have h1 : (13 :: t).dropWhile (· == 13) = t.dropWhile (· == 13) := by
          simp [List.dropWhile_cons]
        unfold consume_newline
        rw [h1]
        split
        · simp only [List.length_cons]
          omega
        · simp only [List.length_cons]
          omega

theorem lineAlt_length_lt (input : List Byte) (hne : input ≠ []) :
    (lineAlt input).2.length < input.length := by
  unfold lineAlt
  cases h1 : user_agent input with
  | some r =>
    simp only [h1, Option.some_orElse]
    exact user_agent_length_lt (show _ = some (r.1, r.2) by rw [h1])
  | none =>
    simp only [h1, Option.none_orElse]
    cases h2 : allow input with
    | some r =>
      simp only [h2, Option.some_orElse]
      exact allow_length_lt (show _ = some (r.1, r.2) by rw [h2])
    | none =>
      simp only [h2, Option.none_orElse]
      cases h3 : disallow input with
      | some r =>
        simp only [h3, Option.some_orElse]
        exact disallow_length_lt (show _ = some (r.1, r.2) by rw [h3])
      | none =>
        simp only [h3, Option.none_orElse]
        cases h4 : sitemap input with
        | some r =>
          simp only [h4, Option.some_orElse]
          exact sitemap_length_lt (show _ = some (r.1, r.2) by rw [h4])
        | none =>
          simp only [h4, Option.none_orElse]
          cases h5 : crawl_delay input with
          | some r =>
            simp only [h5, Option.some_orElse]
            exact crawl_delay_length_lt (show _ = some (r.1, r.2) by rw [h5])
          | none =>
            simp only [h5]
            exact lineRaw_length_lt hne

theorem manyTillLine_total :
    ∀ (fuel : Nat) (input : List Byte), input.length < fuel →
      ∃ ls, manyTillLine fuel input = some ls
  | 0, _, h => absurd h (by omega)
  | _ + 1, [], _ => ⟨[], rfl⟩
  | fuel + 1, b :: input, h => by
    have hlt := lineAlt_length_lt (b :: input) (by simp)
    obtain ⟨ls, hls⟩ := manyTillLine_total fuel (lineAlt (b :: input)).2 (by
      simp only [List.length_cons] at h hlt ⊢
      omega)
    exact ⟨(lineAlt (b :: input)).1 :: ls, by simp [manyTillLine, hls]⟩

/-- The tokenizing phase is total: `robots_txt_parse` succeeds on every byte
sequence. -/
theorem robots_txt_parse_total (input : List Byte) :
    ∃ ls, robots_txt_parse input = some ls :=
  manyTillLine_total _ _ (Nat.lt_succ_self _)

theorem MinRegex.new_eq (p : List Char) : MinRegex.new p = .ok (MinRegex.compile p) := rfl

theorem buildRules_ok : ∀ ls : List Line, ∃ rs, buildRules ls = .ok rs
  | [] => ⟨[], rfl⟩
  | l :: rest => by
    obtain ⟨rs, hrs⟩ := buildRules_ok rest
    cases l with
    | allow pat =>
      by_cases hv : utf8Valid pat = true
      · exact ⟨(MinRegex.compile (percentEncode pat), true) :: rs,
          by simp [buildRules, hv, MinRegex.new, MinRegex.compile, hrs]⟩
      · exact ⟨rs, by simp [buildRules, hv, hrs]⟩
    | disallow pat =>
      by_cases hv : utf8Valid pat = true
      · exact ⟨(MinRegex.compile (percentEncode pat), false) :: rs,
          by simp [buildRules, hv, MinRegex.new, MinRegex.compile, hrs]⟩
      · exact ⟨rs, by simp [buildRules, hv, hrs]⟩
    | userAgent ua => exact ⟨rs, by simp [buildRules, hrs]⟩
    | sitemap u => exact ⟨rs, by simp [buildRules, hrs]⟩
    | crawlDelay d => exact ⟨rs, by simp [buildRules, hrs]⟩
    | raw c => exact ⟨rs, by simp [buildRules, hrs]⟩

theorem mkRobot_ok {q : Except RobotError (List (MinRegex × Bool))}
    (hq : ∃ rs, q = .ok rs) (delay : Option Rat) (sitemaps : List (List Byte)) :
    ∃ r, mkRobot q delay sitemaps = .ok r := by
  obtain ⟨rs, hrs⟩ := hq
  exact ⟨⟨rs, delay, sitemaps⟩, by simp [mkRobot, hrs]⟩

theorem robotFromLines_ok (agent : List Char) (lines : List Line) :
    ∃ r, robotFromLines agent lines = .ok r := by
  unfold robotFromLines
  exact mkRobot_ok (buildRules_ok _) _ _

/-! ## The capturing loop against the spec's state machine -/

theorem selectLoop_filter_eq (agent : List Byte) :
    ∀ (lines : List Line) (inRun cap : Bool),
      (selectLoop agent inRun cap lines).filter (fun l => !l.isUserAgent)
        = specCapture agent inRun cap lines := by
  intro lines
  induction lines with
  | nil => intro inRun cap; rfl
  | cons l rest ih =>
    intro inRun cap
    cases l
    case userAgent ua =>
      cases rest with
      | nil =>
        simp only [selectLoop, specCapture]
        split <;> simp [Line.isUserAgent, specCapture]
      | cons l' rest' =>
        simp only [selectLoop, specCapture]
        exact ih true _
    all_goals
      simp only [selectLoop, specCapture, List.filter_append]
      rw [ih false cap]
      congr 1
      split <;> simp [Line.isUserAgent]

/-! ## Crawl-delay resolution -/

theorem capturedDelay_first {pre post : List Line} {d : Rat}
    (hpre : ∀ l ∈ pre, delayOfLine l = none) :
    capturedDelay (pre ++ Line.crawlDelay (some d) :: post) = some d := by
  unfold capturedDelay
  rw [List.filterMap_append]
  rw [List.filterMap_eq_nil_iff.mpr hpre]
  simp [delayOfLine]

theorem preAgentDelay_mem {lines : List Line} {d : Rat}
    (h : preAgentDelay lines = some d) :
    Line.crawlDelay (some d) ∈ lines.takeWhile fun l => !l.isUserAgent := by
  induction lines with
  | nil => exact Option.noConfusion h
  | cons l rest ih =>
    cases l
    case userAgent ua => simp [preAgentDelay] at h
    case crawlDelay dd =>
      cases dd with
      | none =>
        simp only [preAgentDelay] at h
        rw [List.takeWhile_cons_of_pos (by simp [Line.isUserAgent])]
        exact List.mem_cons_of_mem _ (ih h)
      | some d' =>
        simp only [preAgentDelay] at h
        rw [List.takeWhile_cons_of_pos (by simp [Line.isUserAgent])]
        cases hp : preAgentDelay rest with
        | some d2 =>
          rw [hp] at h
          cases h
          exact List.mem_cons_of_mem _ (ih hp)
        | none =>
          rw [hp] at h
          cases h
          exact List.mem_cons_self _ _
    all_goals
      simp only [preAgentDelay] at h
      rw [List.takeWhile_cons_of_pos (by simp [Line.isUserAgent])]
      exact List.mem_cons_of_mem _ (ih h)

theorem preAgentDelay_eq_none {lines : List Line}
    (h : ∀ d : Rat, Line.crawlDelay (some d) ∉ lines.takeWhile fun l => !l.isUserAgent) :
    preAgentDelay lines = none := by
  cases hp : preAgentDelay lines with
  | none => rfl
  | some d => exact absurd (preAgentDelay_mem hp) (h d)

theorem preAgentDelay_isSome {lines : List Line} {d : Rat}
    (h : Line.crawlDelay (some d) ∈ lines.takeWhile fun l => !l.isUserAgent) :
    ∃ d', preAgentDelay lines = some d' := by
  induction lines with
  | nil => simp at h
  | cons l rest ih =>
    cases l
    case userAgent ua =>
      rw [List.takeWhile_cons_of_neg (by simp [Line.isUserAgent])] at h
      simp at h
    case crawlDelay dd =>
      cases dd with
      | some d' =>
        cases hp : preAgentDelay rest with
        | some d2 => exact ⟨d2, by simp [preAgentDelay, hp]⟩
        | none => exact ⟨d', by simp [preAgentDelay, hp]⟩
      | none =>
        rw [List.takeWhile_cons_of_pos (by simp [Line.isUserAgent])] at h
        rcases List.mem_cons.mp h with he | hm
        · exact absurd he (by simp)
        · simpa [preAgentDelay] using ih hm
    all_goals
      rw [List.takeWhile_cons_of_pos (by simp [Line.isUserAgent])] at h
      rcases List.mem_cons.mp h with he | hm
      · exact absurd he (by simp)
      · simpa [preAgentDelay] using ih hm

/-! ## The precedence order of matched rules -/

theorem keyLe_refl (a : MinRegex × Bool) : keyLe a a :=
  Or.inr ⟨rfl, by cases ha : a.2 <;> simp [ha]⟩

instance : IsTotal (MinRegex × Bool) keyLe := ⟨by
  intro a b
  rcases Nat.lt_trichotomy a.1.pattern.length b.1.pattern.length with h | h | h
  · exact Or.inr (Or.inl h)
  · cases ha : a.2 with
    | true => exact Or.inl (Or.inr ⟨h, Or.inl ha⟩)
    | false => exact Or.inr (Or.inr ⟨h.symm, Or.inr ha⟩)
  · exact Or.inl (Or.inl h)⟩

instance : IsTrans (MinRegex × Bool) keyLe := ⟨by
  intro a b c hab hbc
  rcases hab with h1 | ⟨e1, p1⟩
  · rcases hbc with h2 | ⟨e2, p2⟩
    · exact Or.inl (by omega)
    · exact Or.inl (by omega)
  · rcases hbc with h2 | ⟨e2, p2⟩
    · exact Or.inl (by omega)
    · refine Or.inr ⟨by omega, ?_⟩
      rcases p1 with ha | hb
      · exact Or.inl ha
      · rcases p2 with hb' | hc
        · rw [hb] at hb'
          exact Bool.noConfusion hb'
        · exact Or.inr hc⟩

theorem insertionSort_head_min {ms : List (MinRegex × Bool)} {h : MinRegex × Bool}
    {t : List (MinRegex × Bool)}
    (hs : List.insertionSort keyLe ms = h :: t) :
    h ∈ ms ∧ ∀ y ∈ ms, keyLe h y := by
  have hperm := List.perm_insertionSort keyLe ms
  have hsorted := List.sorted_insertionSort keyLe ms
  rw [hs] at hperm hsorted
  refine ⟨hperm.mem_iff.mp (List.mem_cons_self _ _), fun y hy => ?_⟩
  rcases List.mem_cons.mp (hperm.mem_iff.mpr hy) with he | ht
  · subst he
    exact keyLe_refl _
  · exact List.rel_of_sorted_cons hsorted y ht

theorem allowed_eq_specDecision (rules : List (MinRegex × Bool)) (delay : Option Rat)
    (sitemaps : List (List Byte)) (url : List Char) (h : url ≠ "/robots.txt".data) :
    Robot.allowed ⟨rules, delay, sitemaps⟩ url = specDecision rules url := by
  unfold Robot.allowed specDecision
  rw [if_neg h]
  dsimp only
  cases hs : List.insertionSort keyLe (rules.filter fun rb => rb.1.is_match url) with
  | nil =>
    have hnil : (rules.filter fun rb => rb.1.is_match url) = [] := by
      have hp := List.perm_insertionSort keyLe (rules.filter fun rb => rb.1.is_match url)
      rw [hs] at hp
      exact (List.nil_perm.mp hp)
    rw [hnil]
    simp
  | cons hd tl =>
    obtain ⟨hmem, hmin⟩ := insertionSort_head_min hs
    have hne : (rules.filter fun rb => rb.1.is_match url) ≠ [] := by
      intro hnil
      rw [hnil] at hs
      exact List.noConfusion hs
    rw [if_neg (by simpa using hne)]
    show hd.2 = _
    cases hh : hd.2 with
    | true =>
      symm
      rw [List.any_eq_true]
      refine ⟨hd, hmem, ?_⟩
      rw [hh, Bool.true_and, List.all_eq_true]
      intro y hy
      rcases hmin y hy with hlt | ⟨heq, -⟩
      · simpa using Nat.le_of_lt hlt
      · simpa using Nat.le_of_eq heq.symm
    | false =>
      symm
      rw [List.any_eq_false]
      intro rb hrb hcon
      rw [Bool.and_eq_true, List.all_eq_true] at hcon
      obtain ⟨hrb2, hall⟩ := hcon
      have hlen : hd.1.pattern.length ≤ rb.1.pattern.length := by
        simpa using hall hd hmem
      rcases hmin rb hrb with hlt | ⟨heq, hdisj⟩
      · omega
      · rcases hdisj with hd2 | hrb2'
        · rw [hh] at hd2
          exact Bool.noConfusion hd2
        · rw [hrb2] at hrb2'
          exact Bool.noConfusion hrb2'

/-! ## Construction inversion -/

theorem mkRobot_inv {q : Except RobotError (List (MinRegex × Bool))}
    {delay : Option Rat} {sitemaps : List (List Byte)} {r : Robot}
    (h : mkRobot q delay sitemaps = .ok r) :
    r.delay = delay ∧ r.sitemaps = sitemaps ∧ q = .ok r.rules := by
  cases q with
  | error e => exact Except.noConfusion h
  | ok rules =>
    unfold mkRobot at h
    cases h
    exact ⟨rfl, rfl, rfl⟩

theorem robotFromLines_delay {agent : List Char} {lines : List Line} {r : Robot}
    (h : robotFromLines agent lines = .ok r) :
    r.delay = resolveDelay (robotSubset agent (activeLines lines)) (activeLines lines) :=
  (mkRobot_inv h).1

theorem robotFromLines_sitemaps {agent : List Char} {lines : List Line} {r : Robot}
    (h : robotFromLines agent lines = .ok r) :
    r.sitemaps = collectSitemaps lines :=
  (mkRobot_inv h).2.1

theorem robot_new_lines {agent : List Char} {txt : List Byte} {r : Robot}
    (h : Robot.new agent txt = .ok r) :
    Robot.new agent txt = robotFromLines agent (parsedLines txt) ∧
      robotFromLines agent (parsedLines txt) = .ok r := by
  obtain ⟨ls, hls⟩ := robots_txt_parse_total (txt.map fun b => if b = 0 then 10 else b)
  have he : Robot.new agent txt = robotFromLines agent ls := by
    unfold Robot.new
    rw [hls]
  have hpl : parsedLines txt = ls := by
    unfold parsedLines
    rw [hls]
    rfl
  rw [hpl]
  exact ⟨he, he ▸ h⟩

/-! ## Star collapsing -/

theorem collapseStars_cons_head : ∀ (c : Char) (rest : List Char),
    ∃ t, collapseStars (c :: rest) = c :: t
  | _, [] => ⟨[], rfl⟩
  | c, c2 :: r => by
    by_cases h : c = '*' ∧ c2 = '*'
    · obtain ⟨t, ht⟩ := collapseStars_cons_head c2 r
      refine ⟨t, ?_⟩
      rw [show collapseStars (c :: c2 :: r) = collapseStars (c2 :: r) by
        simp [collapseStars, h]]
      rw [ht, h.1, h.2]
    · exact ⟨collapseStars (c2 :: r), by simp [collapseStars, h]⟩

theorem collapseStars_idem : ∀ l : List Char,
    collapseStars (collapseStars l) = collapseStars l
  | [] => rfl
  | [_] => rfl
  | c1 :: c2 :: rest => by
    by_cases h : c1 = '*' ∧ c2 = '*'
    · rw [show collapseStars (c1 :: c2 :: rest) = collapseStars (c2 :: rest) by
        simp [collapseStars, h]]
      exact collapseStars_idem (c2 :: rest)
    · rw [show collapseStars (c1 :: c2 :: rest) = c1 :: collapseStars (c2 :: rest) by
        simp [collapseStars, h]]
      obtain ⟨t, ht⟩ := collapseStars_cons_head c2 rest
      have hidem := collapseStars_idem (c2 :: rest)
      rw [ht] at hidem ⊢
      have h' : ¬(c1 = '*' ∧ c2 = '*') := h
      rw [show collapseStars (c1 :: c2 :: t) = c1 :: collapseStars (c2 :: t) by
        simp [collapseStars, h']]
      rw [hidem]

theorem robot_new_total (agent : List Char) (txt : List Byte) :
    ∃ r, Robot.new agent txt = .ok r := by
  obtain ⟨ls, hls⟩ := robots_txt_parse_total (txt.map fun b => if b = 0 then 10 else b)
  unfold Robot.new
  rw [hls]
  exact robotFromLines_ok agent ls

theorem doc42_resolve (A : List Byte) :
    resolveDelay
        (selectLoop A false false
          [Line.crawlDelay (some 42), Line.userAgent (asciiBytes "*"),
           Line.disallow (asciiBytes "/x")])
        [Line.crawlDelay (some 42), Line.userAgent (asciiBytes "*"),
         Line.disallow (asciiBytes "/x")]
      = some 42 := by
  cases hm : agentMatches A (asciiBytes "*") <;>
    simp [selectLoop, hm, resolveDelay, capturedDelay, delayOfLine, preAgentDelay]

/-! ## The claims -/

/-- C1, counterexample: the claim quantifies over every query URL, but for a
normalized path of exactly `/robots.txt` the code returns `true` without
ranking the matches: under `Disallow: /robots.txt` the path `/robots.txt`
has a (unique, hence highest-ranked) matching rule of polarity disallow, yet
`allowed` returns `true`. -/
theorem c1_counterexample_robots_txt :
    (Robot.new "a".data (asciiBytes "Disallow: /robots.txt")).map
        (fun r => (r.allowed "/robots.txt".data,
          !(r.rules.filter fun rb => rb.1.is_match "/robots.txt".data).isEmpty,
          specDecision r.rules "/robots.txt".data))
      = .ok (true, true, false) := by decide

/-- C1, amended: for every constructed Robot and every query URL whose
normalized path is not exactly `/robots.txt`, `allowed` collects every
compiled rule whose pattern matches the normalized path, ranks the matching
rules by descending original-pattern length with Allow outranking Disallow
among equal lengths, and returns the polarity of the highest-ranked match;
if no rule matches, `allowed` returns true. -/
theorem c1_allowed_precedence (rules : List (MinRegex × Bool)) (delay : Option Rat)
    (sitemaps : List (List Byte)) (url : List Char) (h : url ≠ "/robots.txt".data) :
    Robot.allowed ⟨rules, delay, sitemaps⟩ url = specDecision rules url ∧
    ((rules.filter fun rb => rb.1.is_match url) = [] →
      Robot.allowed ⟨rules, delay, sitemaps⟩ url = true) := by
  refine ⟨allowed_eq_specDecision rules delay sitemaps url h, fun hnil => ?_⟩
  rw [allowed_eq_specDecision rules delay sitemaps url h]
  unfold specDecision
  rw [hnil]
  rfl

theorem c1_allowed_precedence_witness :
    "/a".data ≠ "/robots.txt".data ∧
    (Robot.allowed ⟨[(MinRegex.compile "/a".data, false)], none, []⟩ "/a".data
      = specDecision [(MinRegex.compile "/a".data, false)] "/a".data) :=
  ⟨by decide, (c1_allowed_precedence [(MinRegex.compile "/a".data, false)] none []
    "/a".data (by decide)).1⟩

/-- C2: the claim requires all operations to be total, but the pattern
matcher panics on an empty normalized path (reachable through
`allowed("mailto:")`, whose parsed URL has an empty path-and-query): on an
empty text `MinRegex::matcher` underflows `text.len() - 1` (debug) or
indexes `text[tidx]` out of bounds (release); `none` models that panic.
The robot built from `Disallow: /` holds exactly one rule, and that rule's
matcher panics on the empty path. -/
theorem c2_matcher_panics_on_empty_path :
    matcherOpt "/".data [] = none ∧
    (Robot.new "a".data (asciiBytes "Disallow: /")).map
        (fun r => r.rules.map fun rb => rb.1.is_matchOpt [])
      = .ok [none] := by
  constructor
  · decide
  · decide

/-- C3: the matcher's result does not equal the literal-regex wildcard
semantics.  Two failing inputs: `/fish*$` must match `/fish` (the `*`
matches the empty run and `$` anchors at the end — the repo's own
`test_robot_handles_starting_position` asserts this), and `/a*c` must match
`/abc` (the `*` matches `b`); the code's matcher returns false on both
because its scan loops stop one position short of the end of the text. -/
theorem c3_matcher_not_wildcard_semantics :
    ((MinRegex.compile "/fish*$".data).is_match "/fish".data = false ∧
      specWildMatch "/fish*$".data "/fish".data = true) ∧
    ((MinRegex.compile "/a*c".data).is_match "/abc".data = false ∧
      specWildMatch "/a*c".data "/abc".data = true) := by decide

/-- C4: agent selection groups consecutive UserAgent lines into one group
header (the code's capturing loop, restricted to the non-UserAgent lines it
captures, equals the spec's state machine for every agent, initial capturing
flag and line sequence); `User-agent: one` + `User-agent: two` +
`Disallow: /tmp` disallows `/tmp` for both "one" and "two"; an agent named
nowhere falls back to the `*` block if present, else is fully allowed. -/
theorem c4_agent_grouping :
    (∀ (agent : List Byte) (cap : Bool) (lines : List Line),
      (selectLoop agent false cap lines).filter (fun l => !l.isUserAgent)
        = specCapture agent false cap lines) ∧
    ((Robot.new "one".data (asciiBytes "User-agent: one\nUser-agent: two\nDisallow: /tmp")).map
        (fun r => r.allowed "/tmp".data) = .ok false ∧
      (Robot.new "two".data (asciiBytes "User-agent: one\nUser-agent: two\nDisallow: /tmp")).map
        (fun r => r.allowed "/tmp".data) = .ok false) ∧
    (Robot.new "three".data (asciiBytes "User-agent: one\nUser-agent: two\nDisallow: /tmp")).map
        (fun r => r.allowed "/tmp".data) = .ok true ∧
    (Robot.new "three".data
        (asciiBytes "User-agent: google\nDisallow: /x\nUser-agent: *\nDisallow: /y")).map
        (fun r => (r.allowed "/y".data, r.allowed "/x".data)) = .ok (false, true) :=
  ⟨fun agent cap lines => selectLoop_filter_eq agent lines false cap,
    ⟨by decide, by decide⟩, by decide, by decide⟩

/-- C5: crawl-delay resolution is two-phase: the delay is the first
`CrawlDelay(Some(_))` of the captured subset when one exists; otherwise any
produced delay comes from a `CrawlDelay(Some(_))` appearing before the first
`UserAgent` line (the scan stopping there), a delay line before the first
`UserAgent` line guarantees a delay is produced, and if neither phase finds
a delay the result is `None`; a document beginning `Crawl-Delay: 42` before
any `User-Agent` line yields `delay = some 42` for every agent (no agent of
that document has a delay of its own). -/
theorem c5_crawl_delay_resolution :
    (∀ (pre post lines : List Line) (d : Rat),
      (∀ l ∈ pre, delayOfLine l = none) →
      resolveDelay (pre ++ Line.crawlDelay (some d) :: post) lines = some d) ∧
    (∀ (subset lines : List Line) (d : Rat),
      capturedDelay subset = none →
      resolveDelay subset lines = some d →
      Line.crawlDelay (some d) ∈ lines.takeWhile fun l => !l.isUserAgent) ∧
    (∀ (subset lines : List Line) (d : Rat),
      capturedDelay subset = none →
      Line.crawlDelay (some d) ∈ lines.takeWhile (fun l => !l.isUserAgent) →
      ∃ d', resolveDelay subset lines = some d') ∧
    (∀ subset lines : List Line,
      capturedDelay subset = none →
      (∀ d : Rat, Line.crawlDelay (some d) ∉ lines.takeWhile fun l => !l.isUserAgent) →
      resolveDelay subset lines = none) ∧
    (∀ agent : List Char,
      (Robot.new agent (asciiBytes "Crawl-Delay: 42\nUser-Agent: *\nDisallow: /x")).map
        Robot.delay = .ok (some 42)) := by
  refine ⟨?_, ?_, ?_, ?_, ?_⟩
  · intro pre post lines d hpre
    unfold resolveDelay
    rw [capturedDelay_first hpre]
  · intro subset lines d h1 h2
    unfold resolveDelay at h2
    rw [h1] at h2
    exact preAgentDelay_mem h2
  · intro subset lines d h1 h2
    unfold resolveDelay
    rw [h1]
    exact preAgentDelay_isSome h2
  · intro subset lines h1 h2
    unfold resolveDelay
    rw [h1]
    exact preAgentDelay_eq_none h2
  · intro agent
    obtain ⟨r, hr⟩ := robot_new_total agent
      (asciiBytes "Crawl-Delay: 42\nUser-Agent: *\nDisallow: /x")
    obtain ⟨heq, hok⟩ := robot_new_lines hr
    have hpl : parsedLines (asciiBytes "Crawl-Delay: 42\nUser-Agent: *\nDisallow: /x")
        = [Line.crawlDelay (some 42), Line.userAgent (asciiBytes "*"),
           Line.disallow (asciiBytes "/x")] := by decide
    rw [hpl] at hok
    rw [heq, hpl, hok]
    have hd := robotFromLines_delay hok
    have hal : activeLines
        [Line.crawlDelay (some 42), Line.userAgent (asciiBytes "*"),
         Line.disallow (asciiBytes "/x")]
        = [Line.crawlDelay (some 42), Line.userAgent (asciiBytes "*"),
           Line.disallow (asciiBytes "/x")] := by decide
    rw [hal] at hd
    unfold robotSubset at hd
    rw [show (decide ((([Line.crawlDelay (some 42), Line.userAgent (asciiBytes "*"),
        Line.disallow (asciiBytes "/x")].filter Line.isUserAgent).length = 0))
        = false) from by decide] at hd
    rw [doc42_resolve] at hd
    simp [Except.map, hd]

theorem c5_crawl_delay_resolution_witness :
    resolveDelay ([Line.raw []] ++ Line.crawlDelay (some 7) :: []) [] = some 7 :=
  c5_crawl_delay_resolution.1 [Line.raw []] [] [] 7 (by decide)

/-- C6: collapsing runs of two-or-more `*` to a single `*` is
semantics-preserving: compiling the collapsed pattern matches exactly the
candidates the original pattern's compiled rule matches; `Disallow: /x***y/`
behaves identically to `Disallow: /x*y/`, and the exported raw pattern
string (`as_str`) of either renders as `/x*y/`. -/
theorem c6_star_collapse_semantics :
    (∀ p t : List Char,
      (MinRegex.compile (collapseStars p)).is_match t = (MinRegex.compile p).is_match t) ∧
    (MinRegex.compile "/x***y/".data).as_str = "/x*y/".data ∧
    (MinRegex.compile "/x*y/".data).as_str = "/x*y/".data ∧
    (∀ t, (MinRegex.compile "/x***y/".data).is_match t
        = (MinRegex.compile "/x*y/".data).is_match t) := by
  refine ⟨fun p t => ?_, by decide, by decide, fun t => ?_⟩
  · unfold MinRegex.is_match MinRegex.is_matchOpt MinRegex.compile
    dsimp only
    rw [collapseStars_idem p]
  · unfold MinRegex.is_match MinRegex.is_matchOpt MinRegex.compile
    dsimp only
    rw [show collapseStars "/x***y/".data = collapseStars "/x*y/".data by decide]

/-- C7: a line recognized as a disallow directive whose value (after comment
stripping and trimming) is empty parses to `Allow("/")` rather than
`Disallow("")`, and this is a successful parse, not an error. -/
theorem c7_empty_disallow_is_allow_all (input v rest : List Byte)
    (h : many_statement_builder disallowKeywords input = some (v, rest))
    (hv : v = []) :
    disallow input = some (Line.allow (asciiBytes "/"), rest) := by
  subst hv
  unfold disallow
  rw [h]
  rfl

theorem c7_empty_disallow_witness :
    many_statement_builder disallowKeywords (asciiBytes "Disallow:") = some ([], []) ∧
    disallow (asciiBytes "Disallow:") = some (Line.allow (asciiBytes "/"), []) :=
  ⟨by decide, c7_empty_disallow_is_allow_all (asciiBytes "Disallow:") [] [] (by decide) rfl⟩

/-- C8: for every document, the constructed Robot's sitemaps vector contains
every syntactically valid Sitemap line of the parsed document, in document
order, not deduplicated, regardless of which user-agent block it appears in;
and the vector does not depend on the requested agent. -/
theorem c8_sitemaps_agent_independent :
    (∀ (agent : List Char) (txt : List Byte) (r : Robot),
      Robot.new agent txt = .ok r → r.sitemaps = docSitemaps (parsedLines txt)) ∧
    (∀ (a1 a2 : List Char) (txt : List Byte) (r1 r2 : Robot),
      Robot.new a1 txt = .ok r1 → Robot.new a2 txt = .ok r2 →
      r1.sitemaps = r2.sitemaps) := by
  have key : ∀ (agent : List Char) (txt : List Byte) (r : Robot),
      Robot.new agent txt = .ok r → r.sitemaps = docSitemaps (parsedLines txt) := by
    intro agent txt r h
    obtain ⟨-, hok⟩ := robot_new_lines h
    rw [robotFromLines_sitemaps hok]
    rfl
  exact ⟨key, fun a1 a2 txt r1 r2 h1 h2 => (key a1 txt r1 h1).trans (key a2 txt r2 h2).symm⟩

theorem c8_sitemaps_witness :
    Robot.new "a".data
        (asciiBytes "User-agent: x\nSitemap: http://x/s.xml\nUser-agent: y\nSitemap: http://x/s.xml")
      = .ok ⟨[], none, [asciiBytes "http://x/s.xml", asciiBytes "http://x/s.xml"]⟩ ∧
    (Robot.mk [] none [asciiBytes "http://x/s.xml", asciiBytes "http://x/s.xml"]).sitemaps
      = docSitemaps (parsedLines
          (asciiBytes "User-agent: x\nSitemap: http://x/s.xml\nUser-agent: y\nSitemap: http://x/s.xml")) :=
  ⟨by decide, c8_sitemaps_agent_independent.1 "a".data
    (asciiBytes "User-agent: x\nSitemap: http://x/s.xml\nUser-agent: y\nSitemap: http://x/s.xml")
    (Robot.mk [] none [asciiBytes "http://x/s.xml", asciiBytes "http://x/s.xml"]) (by decide)⟩

/-- C9: for every constructed Robot (whatever its rules), a query whose
normalized path is exactly `/robots.txt` returns `allowed = true`
unconditionally. -/
theorem c9_robots_txt_always_allowed (rules : List (MinRegex × Bool)) (delay : Option Rat)
    (sitemaps : List (List Byte)) :
    Robot.allowed ⟨rules, delay, sitemaps⟩ "/robots.txt".data = true := by
  unfold Robot.allowed
  rw [if_pos rfl]

/-- C10: for every agent string and every byte sequence, `Robot::new` returns
`Ok`: the line parser always succeeds (unrecognized content degrades to `Raw`
lines), rule compilation (`MinRegex::new`) never fails, so both error
branches of the construction are unreachable. -/
theorem c10_construction_total :
    (∀ input : List Byte, ∃ ls, robots_txt_parse input = some ls) ∧
    (∀ p : List Char, MinRegex.new p = .ok (MinRegex.compile p)) ∧
    (∀ (agent : List Char) (txt : List Byte), ∃ r, Robot.new agent txt = .ok r) :=
  ⟨robots_txt_parse_total, MinRegex.new_eq, robot_new_total⟩

end TextingRobots
